import Mathlib

/-!
Verification of the signal-plan search and delay-evaluation engine in
`analytical.py` (transit signal priority for a four-way intersection).

The Python module is shallowly embedded here:

* phases are `Phase` records (name string, rational duration); Python floats
  are modelled as exact rationals `ℚ`;
* Python substring tests (`"Green" in phase['phase']`) are modelled by the
  executable `strContains`, and `str.replace` by `strReplace`, both structural
  recursions over character lists so that they evaluate by `decide`;
* functions that can raise in Python (`IndexError`, `ZeroDivisionError`)
  return `Option`, with `none` standing for the raised exception; each such
  spot is noted next to the definition;
* the potentially diverging `while` loop of `generate_detailed_timing_plan`
  is written with an explicit fuel parameter; termination of the Python loop
  is `∃ fuel, … = some _`;
* the value `float('inf')` used by the queueing simulation is modelled by the
  two-constructor type `Delay`.
-/

namespace TSPSpec

/-- Boolean test that the first list is an initial segment of the second. -/
def leadsWith : List Char → List Char → Bool
  | [], _ => true
  | _ :: _, [] => false
  | a :: as, b :: bs => a == b && leadsWith as bs

/-- Boolean test that `pat` occurs contiguously inside the second list;
this is Python's `pat in s` on strings. -/
def hasSub (pat : List Char) : List Char → Bool
  | [] => pat.isEmpty
  | c :: rest => leadsWith pat (c :: rest) || hasSub pat rest

/-- Python's `pat in s` substring test on strings. -/
def strContains (s pat : String) : Bool := hasSub pat.toList s.toList

/-- Fueled worker for `strReplace`; replaces non-overlapping occurrences left
to right, exactly like Python's `str.replace`. -/
def replChars (pat rep : List Char) : ℕ → List Char → List Char
  | 0, s => s
  | _ + 1, [] => []
  | n + 1, c :: rest =>
    if leadsWith pat (c :: rest) then rep ++ replChars pat rep n ((c :: rest).drop pat.length)
    else c :: replChars pat rep n rest

/-- Python's `s.replace(pat, rep)` (all non-overlapping occurrences). -/
def strReplace (s pat rep : String) : String :=
  ⟨replChars pat.toList rep.toList (s.toList.length + 1) s.toList⟩

/-- One signal phase: a display name and a duration in seconds.  This is the
`{'phase': str, 'duration': float}` dictionary of `analytical.py`. -/
structure Phase where
  phase : String
  duration : ℚ
deriving DecidableEq

/-- A signal plan is the ordered list of its phases. -/
abbrev SignalPlan := List Phase

/-- `MIN_GREEN = 5` from `analytical.py`. -/
def MIN_GREEN : ℚ := 5

/-- `YELLOW_DURATION = 4` from `analytical.py`. -/
def YELLOW_DURATION : ℚ := 4

/-- Sum of the durations of a plan, `sum(p['duration'] for p in plan)`. -/
def durSum (plan : SignalPlan) : ℚ := (plan.map Phase.duration).sum

/-- The code's classification of a phase as green: `"Green" in p['phase']`. -/
def isGreenName (p : Phase) : Bool := strContains p.phase "Green"

/-- The code's classification of a phase as yellow: `"Yellow" in p['phase']`. -/
def isYellowName (p : Phase) : Bool := strContains p.phase "Yellow"

/-- Per-index worker for `validate_plan`: even positions must be greens of at
least `MIN_GREEN`, odd positions yellows of duration `YELLOW_DURATION ± 0.01`. -/
def validateAux : SignalPlan → ℕ → Bool
  | [], _ => true
  | p :: rest, i =>
    (if i % 2 = 0 then isGreenName p && decide (MIN_GREEN ≤ p.duration)
     else isYellowName p && decide (|p.duration - YELLOW_DURATION| ≤ 1/100)) &&
    validateAux rest (i + 1)

/-- `validate_plan` of `analytical.py` (lines 8-26): exactly four phases,
alternating Green/Yellow with the duration constraints. -/
def validate_plan (plan : SignalPlan) : Bool :=
  decide (plan.length = 4) && validateAux plan 0

/-- Per-green proportional update of `adjust_four_phase_plan_to_cycle_length`
(lines 42-45): add this green's proportional share of the difference, then
clamp at `MIN_GREEN`.  Non-green phases are returned unchanged. -/
def adjustGreen (diff total_green : ℚ) (p : Phase) : Phase :=
  if isGreenName p then
    ⟨p.phase,
     max (p.duration + diff * (if 0 < total_green then p.duration / total_green else 1/2))
       MIN_GREEN⟩
  else p

/-- `adjust_four_phase_plan_to_cycle_length` of `analytical.py` (lines
28-53).  Distributes the difference to the target cycle over the green phases
proportionally (the body of the `for i in green_indices` loop is
`adjustGreen`; iterating it over the green indices equals mapping it over the
plan, because non-green phases are untouched and each update reads only the
precomputed totals), then pushes any residual onto the first green, again
clamped.  `none` models the `IndexError` Python raises at line 51
(`green_indices[0]`) when no phase name contains "Green" and the residual
branch is reached. -/
def adjust_four_phase_plan_to_cycle_length (plan : SignalPlan) (target_cycle_length : ℚ) :
    Option SignalPlan :=
  let total_green := durSum (plan.filter isGreenName)
  let total_yellow := durSum (plan.filter isYellowName)
  let current_cycle := total_green + total_yellow
  let diff := target_cycle_length - current_cycle
  if |diff| < 1/1000000 then some plan
  else
    let plan1 := plan.map (adjustGreen diff total_green)
    let total_green1 := durSum (plan1.filter isGreenName)
    let plan_cycle := total_green1 + total_yellow
    if 1/1000000 < |plan_cycle - target_cycle_length| then
      if plan.any isGreenName then
        let g0 := plan.findIdx isGreenName
        let p0 := plan1.getD g0 ⟨"", 0⟩
        some (plan1.set g0 ⟨p0.phase, max (p0.duration + (target_cycle_length - plan_cycle)) MIN_GREEN⟩)
      else none
    else some plan1

/-- Scenario A base plan of the specification: NS green 46s, NS yellow 4s,
EW green 46s, EW yellow 4s, cycle 100s. -/
def scenarioA : SignalPlan :=
  [⟨"North-South Through Green", 46⟩, ⟨"North-South Through Yellow", 4⟩,
   ⟨"East-West Through Green", 46⟩, ⟨"East-West Through Yellow", 4⟩]

/-- A four-phase plan (greens 5s and 91s) whose green-plus-yellow total 104
exceeds the target 100; proportional adjustment clamps the first green at
`MIN_GREEN` and leaves the accepted plan 5/24 s away from the target. -/
def planPC : SignalPlan :=
  [⟨"North-South Through Green", 5⟩, ⟨"North-South Through Yellow", 4⟩,
   ⟨"East-West Through Green", 91⟩, ⟨"East-West Through Yellow", 4⟩]

/-- The value of one application of the cycle-length adjustment to `planPC`
with target 100. -/
def planPC1 : SignalPlan :=
  [⟨"North-South Through Green", 5⟩, ⟨"North-South Through Yellow", 4⟩,
   ⟨"East-West Through Green", 2093/24⟩, ⟨"East-West Through Yellow", 4⟩]

/-- The value of a second application of the adjustment to `planPC1` with the
same target 100: the long green shrinks again, so the first application was
not idempotent. -/
def planPC2 : SignalPlan :=
  [⟨"North-South Through Green", 5⟩, ⟨"North-South Through Yellow", 4⟩,
   ⟨"East-West Through Green", 192556/2213⟩, ⟨"East-West Through Yellow", 4⟩]

/-- Python's modulo with a nonzero divisor: `x % y = x - y * floor(x / y)`
(the sign of the result follows the divisor, as in CPython). -/
def pymod (x y : ℚ) : ℚ := x - y * ⌊x / y⌋

/-- Scanning worker for `get_current_phase`: walk the phases accumulating
elapsed time and return the first phase whose half-open interval contains the
normalized time. -/
def gcpAux : SignalPlan → ℚ → ℚ → ℕ → Option (ℕ × ℚ)
  | [], _, _, _ => none
  | p :: rest, n, cum, i =>
    if cum ≤ n ∧ n < cum + p.duration then some (i, n - cum)
    else gcpAux rest n (cum + p.duration) (i + 1)

/-- `get_current_phase` of `analytical.py` (lines 366-392).  Normalizes the
time modulo the plan's total duration, then scans.  `none` models both the
Python `return None` (scan exhausted) and the `ZeroDivisionError` raised by
`current_time % cycle_length` when the total duration is zero. -/
def get_current_phase (current_time : ℚ) (signal_timing : SignalPlan) : Option (ℕ × ℚ) :=
  let cycle_length := durSum signal_timing
  if cycle_length = 0 then none
  else gcpAux signal_timing (pymod current_time cycle_length) 0 0

/-- Fueled worker for `enforce_yellow_and_min_green`; the fuel bounds the
`while i < len(signal_plan)` loop (one unit per processed phase, so
`length + 1` is always enough). -/
def enforceAux : ℕ → SignalPlan → Option SignalPlan
  | _, [] => some []
  | 0, _ :: _ => none
  | n + 1, p :: rest =>
    if isGreenName p then
      if p.duration < MIN_GREEN then none
      else
        let rest2 := match rest with
          | q :: t => if isYellowName q then t else q :: t
          | [] => ([] : SignalPlan)
        match enforceAux n rest2 with
        | none => none
        | some r =>
          some (p :: ⟨strReplace p.phase "Green" "Yellow", YELLOW_DURATION⟩ :: r)
    else if isYellowName p then enforceAux n rest
    else
      match enforceAux n rest with
      | none => none
      | some r => some (p :: r)

/-- `enforce_yellow_and_min_green` of `analytical.py` (lines 684-708): every
green keeps its duration (rejecting any below `MIN_GREEN`) and is re-emitted
followed by a fresh yellow of `YELLOW_DURATION`; stray yellows are dropped;
plans without a surviving green are rejected. -/
def enforce_yellow_and_min_green (signal_plan : SignalPlan) : Option SignalPlan :=
  match enforceAux (signal_plan.length + 1) signal_plan with
  | none => none
  | some new_plan => if new_plan.any isGreenName then some new_plan else none

/-- Successor check of `is_valid_signal_plan` for one green phase: the next
phase must exist, be named like the green with "Green" replaced by "Yellow",
and have duration `YELLOW_DURATION ± 0.01`. -/
def greenPairOk (p : Phase) : SignalPlan → Bool
  | [] => false
  | q :: _ =>
    (q.phase == strReplace p.phase "Green" "Yellow") &&
    decide (|q.duration - YELLOW_DURATION| ≤ 1/100)

/-- Per-green worker for `is_valid_signal_plan`: each green must reach
`MIN_GREEN` and be followed immediately by its own yellow of duration
`YELLOW_DURATION ± 0.01`. -/
def greensOk : SignalPlan → Bool
  | [] => true
  | p :: rest =>
    (if isGreenName p then decide (MIN_GREEN ≤ p.duration) && greenPairOk p rest
     else true) && greensOk rest

/-- `is_valid_signal_plan` of `analytical.py` (lines 710-725). -/
def is_valid_signal_plan (signal_plan : SignalPlan) : Bool :=
  greensOk signal_plan && signal_plan.any isGreenName

/-- The final gate of `apply_tsp_at_time` (lines 210-214): run the
yellow/min-green normalization and re-check the result. -/
def finishTsp (modified_plan : SignalPlan) : Option SignalPlan :=
  match enforce_yellow_and_min_green modified_plan with
  | none => none
  | some enforced => if is_valid_signal_plan enforced then some enforced else none

/-- The proportional reduction loop over the `East-West Through` greens in
`apply_tsp_at_time` (lines 198-207), with its early `break` once nothing
remains to remove.  Returns the updated plan and the remaining
`time_to_remove`. -/
def ewReduce (total_ew_green : ℚ) : List ℕ → SignalPlan → ℚ → SignalPlan × ℚ
  | [], mp, ttr => (mp, ttr)
  | i :: rest, mp, ttr =>
    let green := mp.getD i ⟨"", 0⟩
    let max_reducible := green.duration - MIN_GREEN
    let reduction := min (ttr * (green.duration / total_ew_green)) max_reducible
    let mp2 := mp.set i ⟨green.phase, green.duration - reduction⟩
    let ttr2 := ttr - reduction
    if ttr2 ≤ 0 then (mp2, ttr2) else ewReduce total_ew_green rest mp2 ttr2

/-- `apply_tsp_at_time` of `analytical.py` (lines 163-214): split the phase at
`phase_index`, keeping only remainders of at least `MIN_GREEN`, insert the TSP
green/yellow pair, reduce East-West greens proportionally, then normalize and
validate.  `none` models both the explicit `return None` branches and the
`IndexError` on an out-of-range `phase_index`. -/
def apply_tsp_at_time (signal_plan : SignalPlan) (phase_index : ℕ) (time_in_phase : ℚ)
    (extension : ℚ) : Option SignalPlan :=
  match signal_plan.get? phase_index with
  | none => none
  | some ph =>
    if ¬ strContains ph.phase "Green" ∧ ¬ strContains ph.phase "Through" then none
    else
      let before_duration := time_in_phase
      let after_duration := ph.duration - time_in_phase
      if (0 < before_duration ∧ before_duration < MIN_GREEN) ∨
         (0 < after_duration ∧ after_duration < MIN_GREEN) then none
      else
        let mid : SignalPlan :=
          (if MIN_GREEN ≤ before_duration then [⟨ph.phase, before_duration⟩] else []) ++
          [⟨"North-South Through Green", extension⟩,
           ⟨"North-South Through Yellow", YELLOW_DURATION⟩] ++
          (if MIN_GREEN ≤ after_duration then [⟨ph.phase, after_duration⟩] else [])
        let modified_plan := signal_plan.take phase_index ++ mid ++ signal_plan.drop (phase_index + 1)
        let time_to_remove := durSum modified_plan - durSum signal_plan
        let ew_green_indices := (List.range modified_plan.length).filter (fun i =>
          strContains (modified_plan.getD i ⟨"", 0⟩).phase "East-West Through" &&
          strContains (modified_plan.getD i ⟨"", 0⟩).phase "Green")
        if 0 < time_to_remove ∧ ew_green_indices ≠ [] then
          let total_ew_green :=
            ((ew_green_indices.map (fun i => (modified_plan.getD i ⟨"", 0⟩).duration)).sum)
          let r := ewReduce total_ew_green ew_green_indices modified_plan time_to_remove
          if 0 < r.2 then none else finishTsp r.1
        else finishTsp modified_plan

/-- The code's test for a phase being green for the (hard-wired North-South)
bus movement, from `calculate_bus_delay` line 517: name contains
"North-South" but neither "Yellow" nor "Red Clearance". -/
def isNSGreenPhase (p : Phase) : Bool :=
  strContains p.phase "North-South" && !strContains p.phase "Yellow" &&
  !strContains p.phase "Red Clearance"

/-- Forward scan for the next North-South green start, used twice by
`calculate_bus_delay` (once after the located phase, once wrapped from the
start of the plan). -/
def findNextGreenAfter : SignalPlan → ℚ → Option ℚ
  | [], _ => none
  | p :: rest, t => if isNSGreenPhase p then some t else findNextGreenAfter rest (t + p.duration)

/-- Main scan of `calculate_bus_delay` (lines 510-545).  `full` is the whole
plan (needed because the Python code re-finds the current phase with
`timing_plan.index(phase)`, i.e. by the first value-equal occurrence). -/
def busDelayAux (full : SignalPlan) : SignalPlan → ℚ → ℚ → ℚ
  | [], _, _ => 0
  | p :: rest, cum, t =>
    let phase_end := cum + p.duration
    if cum ≤ t ∧ t < phase_end then
      if isNSGreenPhase p then 0
      else
        let idx := full.indexOf p
        match findNextGreenAfter (full.drop (idx + 1)) phase_end with
        | some g => g - t
        | none =>
          match findNextGreenAfter (full.take idx) 0 with
          | some g => g - t
          | none => 0
    else busDelayAux full rest phase_end t

/-- `calculate_bus_delay` of `analytical.py` (lines 490-547).  The bus's
intersection arrival time is the detection time plus
`stop_distance / bus_speed`; the Python defaults `bus_speed = 40` ft/s and
`stop_distance = 750` ft are never overridden anywhere in the repository, so
they are fixed here.  The scan covers the first traversal only and falls
through to `0` when the arrival is beyond it. -/
def calculate_bus_delay (timing_plan : SignalPlan) (bus_arrival_time : ℚ) : ℚ :=
  busDelayAux timing_plan timing_plan 0 (bus_arrival_time + 750 / 40)

/-- Python 3's `int(round(x))`: round half to even (banker's rounding). -/
def pyround (q : ℚ) : ℤ :=
  let f := ⌊q⌋
  let r := q - f
  if r < 1/2 then f
  else if 1/2 < r then f + 1
  else if f % 2 = 0 then f else f + 1

/-- One row of the per-direction map of `generate_detailed_timing_plan`:
the phase-name lists that show GREEN respectively YELLOW for one direction. -/
abbrev DirEntry := List String × List String

/-- One direction's entry of `direction_phase_map` after the fallback pass of
`generate_detailed_timing_plan` (lines 232-261): if no phase of the plan is
named exactly as in the default green list, Through directions rebuild the
names from the direction key with hyphens replaced by spaces, and Left
directions fall back to the corresponding Through names (same hyphen
replacement). -/
def mkDirEntry (signal_timing : SignalPlan) (d : String) (g0 y0 : List String) : DirEntry :=
  if signal_timing.any (fun p => g0.contains p.phase) then (g0, y0)
  else if strContains d "Through" then
    ([strReplace d "-" " " ++ " Green"], [strReplace d "-" " " ++ " Yellow"])
  else
    ([strReplace (strReplace d "Left" "Through") "-" " " ++ " Green"],
     [strReplace (strReplace d "Left" "Through") "-" " " ++ " Yellow"])

/-- The four-direction phase map of `generate_detailed_timing_plan`. -/
structure DirMaps where
  nsl : DirEntry
  nst : DirEntry
  ewl : DirEntry
  ewt : DirEntry

/-- Builds `direction_phase_map` including the fallback pass. -/
def mkDirMaps (signal_timing : SignalPlan) : DirMaps :=
  ⟨mkDirEntry signal_timing "North-South-Left"
      ["North-South Left Green"] ["North-South Left Yellow"],
   mkDirEntry signal_timing "North-South-Through"
      ["North-South Through Green"] ["North-South Through Yellow"],
   mkDirEntry signal_timing "East-West-Left"
      ["East-West Left Green"] ["East-West Left Yellow"],
   mkDirEntry signal_timing "East-West-Through"
      ["East-West Through Green"] ["East-West Through Yellow"]⟩

/-- The GREEN/YELLOW/RED state of one direction during a phase of the given
name (lines 284-290). -/
def colorOf (e : DirEntry) (name : String) : String :=
  if e.1.contains name then "GREEN" else if e.2.contains name then "YELLOW" else "RED"

/-- One emitted record of the detailed timing plan: the second, the active
phase name, and the state of each of the four direction groups.  The Python
code appends to five parallel lists; one list of records is the same data. -/
structure SecRec where
  sec : ℕ
  phaseName : String
  nsl : String
  nst : String
  ewl : String
  ewt : String
deriving DecidableEq

/-- Builds the record emitted for one second. -/
def mkSecRec (dm : DirMaps) (cs : ℕ) (name : String) : SecRec :=
  ⟨cs, name, colorOf dm.nsl name, colorOf dm.nst name, colorOf dm.ewl name, colorOf dm.ewt name⟩

/-- The inner `for t in range(phase_duration)` loop of
`generate_detailed_timing_plan` (lines 279-291): emit one record per second
while the current second is below the horizon.  Returns the new current
second together with the extended record list. -/
def emitPhase (dm : DirMaps) (name : String) (horizon : ℚ) : ℕ → ℕ → List SecRec → ℕ × List SecRec
  | 0, cs, acc => (cs, acc)
  | n + 1, cs, acc =>
    if (cs : ℚ) < horizon then emitPhase dm name horizon n (cs + 1) (acc ++ [mkSecRec dm cs name])
    else (cs, acc)

/-- The outer `while current_second < horizon` loop of
`generate_detailed_timing_plan` (lines 276-292), with explicit fuel: `none`
means the loop has not finished within `fuel` iterations (the Python loop can
genuinely run forever), or that the plan was empty (Python raises).  -/
def genLoop (signal_timing : SignalPlan) (dm : DirMaps) (horizon : ℚ) :
    ℕ → ℕ → ℕ → List SecRec → Option (List SecRec)
  | 0, _, _, _ => none
  | fuel + 1, cs, pidx, acc =>
    if (cs : ℚ) < horizon then
      match signal_timing.get? pidx with
      | none => none
      | some p =>
        let r := emitPhase dm p.phase horizon (pyround p.duration).toNat cs acc
        genLoop signal_timing dm horizon fuel r.1 ((pidx + 1) % signal_timing.length) r.2
    else some acc

/-- `generate_detailed_timing_plan` of `analytical.py` (lines 216-293), with
explicit fuel for the cyclic walk.  The `cycle_length` parameter is accepted
and ignored exactly as in the Python signature. -/
def generate_detailed_timing_plan (signal_timing : SignalPlan) (horizon : ℚ)
    (cycle_length : ℚ) (fuel : ℕ) : Option (List SecRec) :=
  genLoop signal_timing (mkDirMaps signal_timing) horizon fuel 0 0 []

/-- Termination of the Python `while` loop of `generate_detailed_timing_plan`
on the given input: some amount of fuel completes it. -/
def genTerminates (signal_timing : SignalPlan) (horizon cycle_length : ℚ) : Prop :=
  ∃ fuel, (generate_detailed_timing_plan signal_timing horizon cycle_length fuel).isSome

/-- Result of a queueing simulation: a finite total delay in vehicle-seconds
or the Python sentinel `float('inf')`. -/
inductive Delay where
  | fin : ℚ → Delay
  | inf : Delay
deriving DecidableEq

/-- `dir_map` of `calculate_vehicle_queue_delay` (lines 629-642): which
direction column of the detailed plan serves each arrival direction; `none`
models the `KeyError` on an unknown direction. -/
def dir_map (direction : String) : Option String :=
  List.lookup direction
    [("north left", "North-South-Left"), ("north through", "North-South-Through"),
     ("south left", "North-South-Left"), ("south through", "North-South-Through"),
     ("east left", "East-West-Left"), ("east through", "East-West-Through"),
     ("west left", "East-West-Left"), ("west through", "East-West-Through"),
     ("north right", "North-South-Left"), ("south right", "North-South-Left"),
     ("east right", "East-West-Left"), ("west right", "East-West-Left")]

/-- Selects the column `detailed_plan['directions'][key]` of a record. -/
def stateOf (key : String) (r : SecRec) : String :=
  if key == "North-South-Left" then r.nsl
  else if key == "North-South-Through" then r.nst
  else if key == "East-West-Left" then r.ewl
  else r.ewt

/-- The per-second queue loop of `calculate_vehicle_queue_delay`
(lines 644-664), with `saturation_flow = 1` and `startup_lost_time = 2`
inlined as in the source.  State: queue, green streak, running total delay. -/
def queueLoop : List String → ℚ → ℚ → ℕ → ℚ → ℚ
  | [], _, _, _, total => total
  | s :: rest, rate, queue, streak, total =>
    let q1 := queue + rate
    if s == "GREEN" then
      let dep : ℚ := if streak < 2 then 0 else 1
      let streak2 := if streak < 2 then streak + 1 else streak
      let q2 := q1 - min q1 dep
      queueLoop rest rate q2 streak2 (total + q2)
    else queueLoop rest rate q1 0 (total + q1)

/-- `calculate_vehicle_queue_delay` of `analytical.py` (lines 617-664):
expand the plan, return `inf` on an empty expansion, otherwise run the queue
loop over the direction's per-second states. -/
def calculate_vehicle_queue_delay (timing_plan : SignalPlan) (direction : String)
    (avg_arrivals : String → ℚ) (horizon cycle_length : ℚ) (fuel : ℕ) : Option Delay :=
  match generate_detailed_timing_plan timing_plan horizon cycle_length fuel with
  | none => none
  | some detailed =>
    if detailed = [] then some Delay.inf
    else
      match dir_map direction with
      | none => none
      | some key =>
        some (Delay.fin (queueLoop (detailed.map (stateOf key)) (avg_arrivals direction) 0 0 0))

/-- Reference recurrence of claim C6, written from the specification text:
each second the queue grows by the arrival rate; on GREEN, while the green
streak is under the 2-second startup lost time the departure rate is 0 and
the streak grows, otherwise the queue shrinks by `min(queue, 1)`; off GREEN
the streak resets and nothing departs; after the departure step the current
queue is added to the total delay. -/
def specQueueAux : List String → ℚ → ℚ → ℕ → ℚ → ℚ
  | [], _, _, _, total => total
  | s :: rest, rate, queue, streak, total =>
    let q1 := queue + rate
    if s == "GREEN" then
      if streak < 2 then specQueueAux rest rate q1 (streak + 1) (total + q1)
      else
        let q2 := q1 - min q1 1
        specQueueAux rest rate q2 streak (total + q2)
    else specQueueAux rest rate q1 0 (total + q1)

/-- The reference recurrence of claim C6 started from the empty state. -/
def specQueueRecurrence (timeline : List String) (rate : ℚ) : ℚ :=
  specQueueAux timeline rate 0 0 0

/-- The twelve arrival directions simulated by `calculate_person_delay`, in
the order of lines 582-593. -/
def dirs12 : List String :=
  ["north left", "north through", "north right",
   "south left", "south through", "south right",
   "east left", "east through", "east right",
   "west left", "west through", "west right"]

/-- The default `avg_arrivals` dictionary of `analytical.py` (0.3 vehicles
per second for left and through arrivals, 0.2 for right turns). -/
def avg_arrivals_default : String → ℚ := fun d =>
  (List.lookup d
    [("north left", 3/10), ("north through", 3/10), ("north right", 1/5),
     ("south left", 3/10), ("south through", 3/10), ("south right", 1/5),
     ("east left", 3/10), ("east through", 3/10), ("east right", 1/5),
     ("west left", 3/10), ("west through", 3/10), ("west right", 1/5)]).getD 0

/-- The finite value of a delay (`0` for `inf`; only used after `inf` has
been excluded). -/
def delayVal : Delay → ℚ
  | .fin q => q
  | .inf => 0

/-- `calculate_person_delay` of `analytical.py` (lines 549-615): bus delay
weighted by bus occupancy plus every direction's queue delay weighted by car
occupancy (the Python defaults are 30 passengers per bus and 1.5 per car;
callers here pass them explicitly).  `inf` as soon as any per-direction
simulation is `inf`.  The
twelve per-direction delays are summed here in list order — Python adds the
same twelve numbers in a slightly different order (lines 602-614), which is
the same rational number.  `none` models a diverging expansion. -/
def calculate_person_delay (timing_plan : SignalPlan) (bus_arrival_time : ℚ)
    (avg_arrivals : String → ℚ) (cycle_length : ℚ) (fuel : ℕ)
    (passengers_per_bus passengers_per_car : ℚ) : Option Delay :=
  let bus_delay := calculate_bus_delay timing_plan bus_arrival_time
  let total_bus_passenger_delay := bus_delay * passengers_per_bus
  let two_cycles := min (cycle_length * 2) 200
  let delays := dirs12.map (fun d =>
    calculate_vehicle_queue_delay timing_plan d avg_arrivals two_cycles cycle_length fuel)
  if delays.all Option.isSome then
    let vs := delays.map (fun o => o.getD Delay.inf)
    if vs.contains Delay.inf then some Delay.inf
    else
      some (Delay.fin (total_bus_passenger_delay +
        (vs.map (fun v => delayVal v * passengers_per_car)).sum))
  else none

/-! ## Helper lemmas -/

lemma durSum_nil : durSum [] = 0 := rfl

lemma durSum_cons (p : Phase) (l : SignalPlan) : durSum (p :: l) = p.duration + durSum l := by
  simp [durSum]

lemma durSum_nonneg (l : SignalPlan) (h : ∀ q ∈ l, 0 ≤ q.duration) : 0 ≤ durSum l := by
  induction l with
  | nil => simp [durSum]
  | cons p rest ih =>
    rw [durSum_cons]
    have h1 := h p (List.mem_cons_self p rest)
    have h2 := ih fun q hq => h q (List.mem_cons_of_mem p hq)
    linarith

lemma greensOk_min (l : SignalPlan) (h : greensOk l = true) :
    ∀ q ∈ l, isGreenName q = true → MIN_GREEN ≤ q.duration := by
  induction l with
  | nil => simp
  | cons p rest ih =>
    intro q hq hgq
    rw [greensOk] at h
    rw [Bool.and_eq_true] at h
    rcases List.mem_cons.1 hq with rfl | hq'
    · rw [if_pos hgq, Bool.and_eq_true] at h
      have := h.1.1
      simpa using this
    · exact ih h.2 q hq' hgq

lemma is_valid_min_green (l : SignalPlan) (h : is_valid_signal_plan l = true) :
    ∀ q ∈ l, isGreenName q = true → MIN_GREEN ≤ q.duration := by
  rw [is_valid_signal_plan, Bool.and_eq_true] at h
  exact greensOk_min l h.1

lemma finishTsp_valid (mp r : SignalPlan) (h : finishTsp mp = some r) :
    is_valid_signal_plan r = true := by
  rcases he : enforce_yellow_and_min_green mp with _ | e
  · simp only [finishTsp, he] at h
    exact absurd h (by simp)
  · simp only [finishTsp, he] at h
    split_ifs at h with hv
    exact (Option.some.inj h) ▸ hv

/-! ## Claim C4 -/

/-- Claim C4, counterexample: `split_and_insert` (`apply_tsp_at_time`) does
not always fail on a non-green target phase.  In Scenario A's plan, phase 1
is the 4-second "North-South Through Yellow" — not a Green phase — yet with
offset 5 and extension 5 the call succeeds (the guard also lets any phase
whose name contains "Through" pass, and an offset beyond the phase duration
makes the after-remainder negative, which the remainder check ignores). -/
theorem C4_non_green_reject_cex :
    scenarioA.get? 1 = some ⟨"North-South Through Yellow", 4⟩ ∧
    isGreenName ⟨"North-South Through Yellow", 4⟩ = false ∧
    apply_tsp_at_time scenarioA 1 5 5 ≠ none := by
  refine ⟨by simp [scenarioA], by decide, ?_⟩
  have h : apply_tsp_at_time scenarioA 1 5 5 =
      some [⟨"North-South Through Green", 46⟩, ⟨"North-South Through Yellow", 4⟩,
            ⟨"North-South Through Green", 5⟩, ⟨"North-South Through Yellow", 4⟩,
            ⟨"East-West Through Green", 36⟩, ⟨"East-West Through Yellow", 4⟩] := by
    norm_num +decide [apply_tsp_at_time, scenarioA, durSum, ewReduce, finishTsp,
      enforce_yellow_and_min_green, enforceAux, is_valid_signal_plan, greensOk, greenPairOk,
      isGreenName, isYellowName, strContains, hasSub, leadsWith, strReplace, replChars,
      MIN_GREEN, YELLOW_DURATION, List.range_succ]
  rw [h]
  simp

/-- Claim C4, amended: `apply_tsp_at_time` returns no result whenever the
name of the phase at the given index contains neither "Green" nor "Through"
(the code's guard tests exactly this, so a Yellow phase whose name contains
"Through" is not rejected by the guard). -/
theorem C4_non_green_reject_amended (signal_plan : SignalPlan) (phase_index : ℕ)
    (time_in_phase extension : ℚ) (p : Phase)
    (hp : signal_plan.get? phase_index = some p)
    (hg : strContains p.phase "Green" = false)
    (ht : strContains p.phase "Through" = false) :
    apply_tsp_at_time signal_plan phase_index time_in_phase extension = none := by
  simp only [apply_tsp_at_time, hp]
  rw [if_pos (by simp [hg, ht])]

/-- Claim C4, witness for the amended theorem: an all-red clearance phase
(name without "Green" and "Through") is rejected. -/
theorem C4_non_green_reject_amended_witness :
    apply_tsp_at_time [⟨"All Red Clearance", 3⟩] 0 0 5 = none :=
  C4_non_green_reject_amended [⟨"All Red Clearance", 3⟩] 0 0 5 ⟨"All Red Clearance", 3⟩
    (by simp) (by decide) (by decide)

/-! ## Claim C5 -/

/-- Claim C5: if the before-remainder (`offset`) or the after-remainder
(`duration - offset`) of the split phase is strictly positive but below
`MIN_GREEN`, `apply_tsp_at_time` returns no result; and no returned plan ever
contains a Green phase shorter than `MIN_GREEN`. -/
theorem C5_min_green_remainders :
    (∀ (signal_plan : SignalPlan) (phase_index : ℕ) (time_in_phase extension : ℚ) (p : Phase),
       signal_plan.get? phase_index = some p →
       ((0 < time_in_phase ∧ time_in_phase < MIN_GREEN) ∨
        (0 < p.duration - time_in_phase ∧ p.duration - time_in_phase < MIN_GREEN)) →
       apply_tsp_at_time signal_plan phase_index time_in_phase extension = none) ∧
    (∀ (signal_plan : SignalPlan) (phase_index : ℕ) (time_in_phase extension : ℚ)
       (result : SignalPlan),
       apply_tsp_at_time signal_plan phase_index time_in_phase extension = some result →
       ∀ q ∈ result, isGreenName q = true → MIN_GREEN ≤ q.duration) := by
  constructor
  · intro sp i t e p hp hrem
    simp only [apply_tsp_at_time, hp]
    by_cases hg : (¬ strContains p.phase "Green" = true ∧ ¬ strContains p.phase "Through" = true)
    · rw [if_pos hg]
    · rw [if_neg hg, if_pos hrem]
  · intro sp i t e result h
    rcases hp : sp.get? i with _ | p
    · simp only [apply_tsp_at_time, hp] at h
      exact absurd h (by simp)
    · simp only [apply_tsp_at_time, hp] at h
      split_ifs at h <;>
        first
          | exact is_valid_min_green result (finishTsp_valid _ result h)
          | exact absurd h (by simp)

/-- Claim C5, witness: offset 2 inside Scenario A's first green leaves a
positive before-remainder below `MIN_GREEN`, so the call fails; and the
successful call of the C4 counterexample emits only greens of at least
`MIN_GREEN`. -/
theorem C5_min_green_remainders_witness :
    apply_tsp_at_time scenarioA 0 2 5 = none :=
  C5_min_green_remainders.1 scenarioA 0 2 5 ⟨"North-South Through Green", 46⟩
    (by simp [scenarioA]) (Or.inl (by norm_num [MIN_GREEN]))

/-! ## Claim C9 -/

/-- Claim C9, counterexample: `get_current_phase` can fail on a non-empty
plan.  On a one-phase plan of total duration 0 the Python code raises
`ZeroDivisionError` at `current_time % cycle_length` (our model returns
`none`), so "fails only if the plan is empty" is wrong. -/
theorem C9_locate_cex :
    get_current_phase 0 [⟨"All Red Clearance", 0⟩] = none ∧
    ([⟨"All Red Clearance", 0⟩] : SignalPlan) ≠ [] := by
  constructor
  · norm_num [get_current_phase, durSum]
  · simp

lemma pymod_nonneg (t c : ℚ) (hc : 0 < c) : 0 ≤ pymod t c := by
  rw [pymod]
  have h := Int.floor_le (t / c)
  have h2 : c * (⌊t / c⌋ : ℚ) ≤ c * (t / c) := by
    exact mul_le_mul_of_nonneg_left h (le_of_lt hc)
  have h3 : c * (t / c) = t := by field_simp
  linarith

lemma pymod_lt (t c : ℚ) (hc : 0 < c) : pymod t c < c := by
  rw [pymod]
  have h := Int.lt_floor_add_one (t / c)
  have h2 : c * (t / c) < c * ((⌊t / c⌋ : ℚ) + 1) := by
    exact mul_lt_mul_of_pos_left h hc
  have h3 : c * (t / c) = t := by field_simp
  nlinarith

lemma gcpAux_isSome (plan : SignalPlan) :
    ∀ (n cum : ℚ) (i : ℕ), cum ≤ n → n < cum + durSum plan →
    (gcpAux plan n cum i).isSome = true := by
  induction plan with
  | nil =>
    intro n cum i h1 h2
    rw [durSum_nil] at h2
    linarith
  | cons p rest ih =>
    intro n cum i h1 h2
    rw [gcpAux]
    split_ifs with hc
    · simp
    · have hge : cum + p.duration ≤ n := by
        rcases not_and_or.1 hc with h | h
        · exact absurd h1 h
        · exact not_lt.1 h
      apply ih n (cum + p.duration) (i + 1) hge
      rw [durSum_cons] at h2
      linarith

/-- Claim C9, amended: `get_current_phase` fails only when the plan is empty
or its total duration is not positive.  For every plan with positive total
duration and every time value, it normalizes the time modulo the total
duration and returns some (phase index, offset) pair. -/
theorem C9_locate_amended (signal_timing : SignalPlan) (current_time : ℚ)
    (hpos : 0 < durSum signal_timing) :
    (get_current_phase current_time signal_timing).isSome = true := by
  rw [get_current_phase]
  rw [if_neg (ne_of_gt hpos)]
  exact gcpAux_isSome signal_timing (pymod current_time (durSum signal_timing)) 0 0
    (pymod_nonneg _ _ hpos)
    (by simpa using pymod_lt current_time (durSum signal_timing) hpos)

/-- Claim C9, witness for the amended theorem: a time beyond one cycle of
Scenario A's plan is located after normalization. -/
theorem C9_locate_amended_witness :
    (get_current_phase (1234/10) scenarioA).isSome = true :=
  C9_locate_amended scenarioA (1234/10) (by norm_num [durSum, scenarioA])

/-! ## Claim C8 -/

/-- Claim C8, counterexample: `adjust_to_target_cycle_length` is not
idempotent.  On the four-phase plan with greens 5 s and 91 s and target 100,
the first application clamps the first green at `MIN_GREEN` and returns a
plan of cycle 2405/24 (≈ 100.21); a second application with the same target
shrinks the long green again (2093/24 → 192556/2213), so the second call is
not a no-op. -/
theorem C8_adjust_idempotent_cex :
    adjust_four_phase_plan_to_cycle_length planPC 100 = some planPC1 ∧
    adjust_four_phase_plan_to_cycle_length planPC1 100 ≠ some planPC1 := by
  constructor
  · norm_num +decide [adjust_four_phase_plan_to_cycle_length, adjustGreen, planPC, planPC1,
      durSum, isGreenName, isYellowName, strContains, hasSub, leadsWith, MIN_GREEN,
      List.findIdx_cons, abs_of_nonneg, abs_of_nonpos]
  · have he : adjust_four_phase_plan_to_cycle_length planPC1 100 = some planPC2 := by
      norm_num +decide [adjust_four_phase_plan_to_cycle_length, adjustGreen, planPC1, planPC2,
        durSum, isGreenName, isYellowName, strContains, hasSub, leadsWith, MIN_GREEN,
        List.findIdx_cons, abs_of_nonneg, abs_of_nonpos]
    rw [he]
    norm_num [planPC1, planPC2]

/-- Claim C8, amended: the adjustment is a no-op on any plan whose
green-plus-yellow total is already within 1e-6 of the target; in particular a
second application after a first one that reached the target changes
nothing.  (When `MIN_GREEN` clamping leaves the first application off-target
by more than 1e-6, a second application may change durations further, as the
counterexample shows.) -/
theorem C8_adjust_idempotent_amended (plan : SignalPlan) (target : ℚ) (plan1 : SignalPlan)
    (happ : adjust_four_phase_plan_to_cycle_length plan target = some plan1)
    (hclose : |target - (durSum (plan1.filter isGreenName) + durSum (plan1.filter isYellowName))|
      < 1/1000000) :
    adjust_four_phase_plan_to_cycle_length plan1 target = some plan1 := by
  rw [adjust_four_phase_plan_to_cycle_length]
  rw [if_pos hclose]

/-- Claim C8, witness for the amended theorem: Scenario A's plan already has
cycle 100, so adjusting to 100 once and twice both return it unchanged. -/
theorem C8_adjust_idempotent_amended_witness :
    adjust_four_phase_plan_to_cycle_length scenarioA 100 = some scenarioA := by
  have h1 : adjust_four_phase_plan_to_cycle_length scenarioA 100 = some scenarioA := by
    norm_num +decide [adjust_four_phase_plan_to_cycle_length, adjustGreen, scenarioA,
      durSum, isGreenName, isYellowName, strContains, hasSub, leadsWith, MIN_GREEN,
      abs_of_nonneg, abs_of_nonpos]
  exact C8_adjust_idempotent_amended scenarioA 100 scenarioA h1
    (by norm_num +decide [scenarioA, durSum, isGreenName, isYellowName, strContains,
      hasSub, leadsWith, abs_of_nonneg, abs_of_nonpos])

/-! ## Claims C2 and C3: bus delay -/

lemma busDelayAux_append (full : SignalPlan) (p : Phase) (post : SignalPlan) :
    ∀ (pre : SignalPlan) (base t : ℚ), (∀ q ∈ pre, 0 ≤ q.duration) → base + durSum pre ≤ t →
    busDelayAux full (pre ++ p :: post) base t = busDelayAux full (p :: post) (base + durSum pre) t := by
  intro pre
  induction pre with
  | nil => intro base t _ _; simp [durSum_nil]
  | cons q pre' ih =>
    intro base t hnn hle
    have hq0 : 0 ≤ q.duration := hnn q (List.mem_cons_self q pre')
    have hpre' : ∀ r ∈ pre', 0 ≤ r.duration := fun r hr => hnn r (List.mem_cons_of_mem q hr)
    have hsum : 0 ≤ durSum pre' := durSum_nonneg pre' hpre'
    rw [durSum_cons] at hle
    rw [List.cons_append, busDelayAux]
    rw [if_neg (by rintro ⟨h1, h2⟩; linarith)]
    rw [ih (base + q.duration) t hpre' (by linarith)]
    have harg : base + q.duration + durSum pre' = base + durSum (q :: pre') := by
      rw [durSum_cons]; ring
    rw [harg]

lemma indexOf_append_self (pre : SignalPlan) (p : Phase) (post : SignalPlan) (hnp : p ∉ pre) :
    (pre ++ p :: post).indexOf p = pre.length := by
  induction pre with
  | nil => simp
  | cons q pre' ih =>
    have hne : p ≠ q := fun h => hnp (h ▸ List.mem_cons_self q pre')
    have hih := ih fun h => hnp (List.mem_cons_of_mem q h)
    simp only [List.cons_append, List.indexOf_cons_ne _ (Ne.symm hne), hih]
    rfl

lemma drop_append_cons (p : Phase) (post : SignalPlan) :
    ∀ pre : SignalPlan, (pre ++ p :: post).drop (pre.length + 1) = post := by
  intro pre
  induction pre with
  | nil => simp
  | cons q pre' ih => simpa using ih

lemma take_append_cons (p : Phase) (post : SignalPlan) :
    ∀ pre : SignalPlan, (pre ++ p :: post).take pre.length = pre := by
  intro pre
  induction pre with
  | nil => simp
  | cons q pre' ih => simp [ih]

/-- Claim C2: if the bus's intersection-arrival time (detection time plus
`stop_distance / speed` = 750/40 s) falls, in the first traversal of a plan
with non-negative durations before that point, inside a phase that the code
classifies as green for the bus (the bus movement is hard-wired to
North-South), `calculate_bus_delay` returns 0. -/
theorem C2_zero_delay_on_green (timing_plan : SignalPlan) (bus_arrival_time : ℚ)
    (pre post : SignalPlan) (p : Phase)
    (hplan : timing_plan = pre ++ p :: post)
    (hnn : ∀ q ∈ pre, 0 ≤ q.duration)
    (hlo : durSum pre ≤ bus_arrival_time + 750 / 40)
    (hhi : bus_arrival_time + 750 / 40 < durSum pre + p.duration)
    (hgreen : isNSGreenPhase p = true) :
    calculate_bus_delay timing_plan bus_arrival_time = 0 := by
  rw [calculate_bus_delay, hplan]
  rw [busDelayAux_append _ p post pre 0 _ hnn (by simpa using hlo)]
  simp only [busDelayAux, zero_add]
  rw [if_pos ⟨hlo, hhi⟩, if_pos hgreen]

/-- Claim C2, witness: Scenario A of the specification.  Detection at 20 s
gives intersection arrival 20 + 750/40 = 38.75 s, inside the 0–46 s
North-South green, and the computed delay is 0. -/
theorem C2_zero_delay_on_green_witness : calculate_bus_delay scenarioA 20 = 0 :=
  C2_zero_delay_on_green scenarioA 20 []
    [⟨"North-South Through Yellow", 4⟩, ⟨"East-West Through Green", 46⟩,
     ⟨"East-West Through Yellow", 4⟩]
    ⟨"North-South Through Green", 46⟩ rfl (by simp)
    (by norm_num [durSum_nil]) (by norm_num [durSum_nil]) (by decide)

/-- Claim C3, counterexample: the claim's own instance fails.  For the
Scenario A plan and intersection-arrival time 10 s (detection −8.75 s) with
the bus on East-West, the claim expects delay 40 s; but `calculate_bus_delay`
has no movement-group parameter — it hard-wires North-South — so 10 s lies in
the NS green and the function returns 0, not 40. -/
theorem C3_red_delay_cex :
    calculate_bus_delay scenarioA (-35/4) = 0 ∧ (0 : ℚ) ≠ 40 := by
  constructor
  · norm_num +decide [calculate_bus_delay, busDelayAux, scenarioA, isNSGreenPhase,
      strContains, hasSub, leadsWith]
  · norm_num

/-- Claim C3, amended: `calculate_bus_delay` always treats the bus as a
North-South movement.  When the intersection-arrival time falls (in the first
traversal) inside a phase that is not North-South-green, and that phase's
first value-equal occurrence in the plan is itself (`timing_plan.index`), the
function returns `nextGreenStart − arrival`, where the next North-South green
start is sought after the phase's end and otherwise, wrapping once, from the
plan's start at time 0 — so a wrapped result is negative — and 0 when no
North-South green exists at all. -/
theorem C3_red_delay_amended (timing_plan : SignalPlan) (bus_arrival_time : ℚ)
    (pre post : SignalPlan) (p : Phase)
    (hplan : timing_plan = pre ++ p :: post)
    (hnn : ∀ q ∈ pre, 0 ≤ q.duration)
    (hnotin : p ∉ pre)
    (hlo : durSum pre ≤ bus_arrival_time + 750 / 40)
    (hhi : bus_arrival_time + 750 / 40 < durSum pre + p.duration)
    (hred : isNSGreenPhase p = false) :
    calculate_bus_delay timing_plan bus_arrival_time =
      (match findNextGreenAfter post (durSum pre + p.duration) with
       | some g => g - (bus_arrival_time + 750 / 40)
       | none =>
         match findNextGreenAfter pre 0 with
         | some g => g - (bus_arrival_time + 750 / 40)
         | none => 0) := by
  rw [calculate_bus_delay, hplan]
  rw [busDelayAux_append _ p post pre 0 _ hnn (by simpa using hlo)]
  simp only [busDelayAux, zero_add]
  rw [if_pos ⟨hlo, hhi⟩, if_neg (by simp [hred])]
  rw [indexOf_append_self pre p post hnotin]
  rw [drop_append_cons p post pre, take_append_cons p post pre]

/-- Claim C3, witness for the amended theorem: Scenario A with intersection
arrival 60 s (inside the East-West green).  The forward scan finds no further
North-South green, the wrapped scan finds the one at plan start 0 s, and the
returned "delay" is 0 − 60 = −60 s. -/
theorem C3_red_delay_amended_witness : calculate_bus_delay scenarioA (165/4) = -60 := by
  have h := C3_red_delay_amended scenarioA (165/4)
    [⟨"North-South Through Green", 46⟩, ⟨"North-South Through Yellow", 4⟩]
    [⟨"East-West Through Yellow", 4⟩] ⟨"East-West Through Green", 46⟩
    rfl (by
      intro q hq
      simp only [List.mem_cons] at hq
      rcases hq with rfl | rfl | hq
      · norm_num
      · norm_num
      · simp at hq)
    (by decide)
    (by norm_num [durSum, scenarioA]) (by norm_num [durSum, scenarioA]) (by decide)
  rw [h]
  norm_num +decide [findNextGreenAfter, isNSGreenPhase, strContains, hasSub, leadsWith,
    durSum]

/-! ## Claim C6: the per-movement queueing simulation -/

lemma queueLoop_eq_spec (rate : ℚ) (hrate : 0 ≤ rate) :
    ∀ (tl : List String) (queue : ℚ) (streak : ℕ) (total : ℚ), 0 ≤ queue →
    queueLoop tl rate queue streak total = specQueueAux tl rate queue streak total := by
  intro tl
  induction tl with
  | nil => intro q s t _; rfl
  | cons hd rest ih =>
    intro q s t hq
    have hq1 : (0:ℚ) ≤ q + rate := by linarith
    simp only [queueLoop, specQueueAux]
    by_cases hg : (hd == "GREEN") = true
    · rw [if_pos hg, if_pos hg]
      by_cases hs : s < 2
      · rw [if_pos hs, if_pos hs, if_pos hs]
        rw [min_eq_right hq1, sub_zero]
        exact ih (q + rate) (s + 1) (t + (q + rate)) hq1
      · rw [if_neg hs, if_neg hs, if_neg hs]
        have hq2 : (0:ℚ) ≤ q + rate - min (q + rate) 1 :=
          sub_nonneg.2 (min_le_left _ _)
        exact ih _ s _ hq2
    · rw [if_neg hg, if_neg hg]
      exact ih (q + rate) 0 (t + (q + rate)) hq1

/-- Claim C6, counterexample: on an expanded timeline of length 0 (horizon
0), `calculate_vehicle_queue_delay` returns the defensive `+infinity`, while
the claim's reference recurrence yields total delay 0, so the stated equality
fails for the empty timeline. -/
theorem C6_queue_recurrence_cex :
    generate_detailed_timing_plan [⟨"North-South Through Green", 10⟩] 0 0 1 = some [] ∧
    calculate_vehicle_queue_delay [⟨"North-South Through Green", 10⟩] "north through"
      avg_arrivals_default 0 0 1 = some Delay.inf ∧
    some Delay.inf ≠
      some (Delay.fin (specQueueRecurrence (([] : List SecRec).map (stateOf "North-South-Through"))
        (avg_arrivals_default "north through"))) := by
  refine ⟨?_, ?_, ?_⟩
  · norm_num [generate_detailed_timing_plan, genLoop]
  · norm_num [calculate_vehicle_queue_delay, generate_detailed_timing_plan, genLoop]
  · simp [specQueueRecurrence, specQueueAux]

/-- Claim C6, amended: on every non-empty expanded timeline,
`calculate_vehicle_queue_delay` equals the claim's reference recurrence
applied to that timeline's per-second states of the movement's direction
group, for every known movement and non-negative arrival rate.  (On an empty
timeline the function returns `+infinity` instead, see the counterexample.) -/
theorem C6_queue_recurrence_amended (timing_plan : SignalPlan) (direction : String)
    (avg_arrivals : String → ℚ) (horizon cycle_length : ℚ) (fuel : ℕ)
    (tl : List SecRec) (key : String)
    (hgen : generate_detailed_timing_plan timing_plan horizon cycle_length fuel = some tl)
    (hne : tl ≠ [])
    (hkey : dir_map direction = some key)
    (hrate : 0 ≤ avg_arrivals direction) :
    calculate_vehicle_queue_delay timing_plan direction avg_arrivals horizon cycle_length fuel =
      some (Delay.fin (specQueueRecurrence (tl.map (stateOf key)) (avg_arrivals direction))) := by
  simp only [calculate_vehicle_queue_delay, hgen]
  rw [if_neg hne]
  simp only [hkey]
  rw [specQueueRecurrence,
    queueLoop_eq_spec (avg_arrivals direction) hrate (tl.map (stateOf key)) 0 0 0 le_rfl]

/-- Four-phase plan with 5-second greens, used as a small concrete input for
the expander and simulator witnesses. -/
def plan4 : SignalPlan :=
  [⟨"North-South Through Green", 5⟩, ⟨"North-South Through Yellow", 4⟩,
   ⟨"East-West Through Green", 5⟩, ⟨"East-West Through Yellow", 4⟩]

/-- The expansion of `plan4` over a 10-second horizon: five NS-green seconds,
four NS-yellow seconds, one EW-green second.  The Left columns are always RED
because `plan4` has no Left phases and the code's fallback rebuilds the name
without the hyphen in "North-South"/"East-West", which matches no phase. -/
def tl4 : List SecRec :=
  [⟨0, "North-South Through Green", "RED", "GREEN", "RED", "RED"⟩,
   ⟨1, "North-South Through Green", "RED", "GREEN", "RED", "RED"⟩,
   ⟨2, "North-South Through Green", "RED", "GREEN", "RED", "RED"⟩,
   ⟨3, "North-South Through Green", "RED", "GREEN", "RED", "RED"⟩,
   ⟨4, "North-South Through Green", "RED", "GREEN", "RED", "RED"⟩,
   ⟨5, "North-South Through Yellow", "RED", "YELLOW", "RED", "RED"⟩,
   ⟨6, "North-South Through Yellow", "RED", "YELLOW", "RED", "RED"⟩,
   ⟨7, "North-South Through Yellow", "RED", "YELLOW", "RED", "RED"⟩,
   ⟨8, "North-South Through Yellow", "RED", "YELLOW", "RED", "RED"⟩,
   ⟨9, "East-West Through Green", "RED", "RED", "RED", "GREEN"⟩]

lemma generate_plan4 : generate_detailed_timing_plan plan4 10 5 15 = some tl4 := by
  norm_num +decide [generate_detailed_timing_plan, genLoop, emitPhase, mkSecRec, colorOf,
    mkDirMaps, mkDirEntry, pyround, strReplace, replChars, strContains, hasSub, leadsWith,
    plan4, tl4, List.get?, Int.toNat_ofNat, abs_of_nonneg, abs_of_nonpos]

/-- Claim C6, witness for the amended theorem: the 10-second expansion of
`plan4` for the north-through movement at rate 0.3. -/
theorem C6_queue_recurrence_amended_witness :
    calculate_vehicle_queue_delay plan4 "north through" avg_arrivals_default 10 5 15 =
      some (Delay.fin (specQueueRecurrence (tl4.map (stateOf "North-South-Through"))
        (avg_arrivals_default "north through"))) :=
  C6_queue_recurrence_amended plan4 "north through" avg_arrivals_default 10 5 15 tl4
    "North-South-Through" generate_plan4 (by simp [tl4]) (by decide)
    (by rw [show avg_arrivals_default "north through" = 3/10 from rfl]; norm_num)

/-! ## Claim C7: person delay -/

lemma map_congr_mem {α β : Type} (l : List α) (F G : α → β) (h : ∀ a ∈ l, F a = G a) :
    l.map F = l.map G := by
  induction l with
  | nil => rfl
  | cons a t ih =>
    simp only [List.map_cons, h a (List.mem_cons_self a t)]
    rw [ih fun b hb => h b (List.mem_cons_of_mem a hb)]

/-- Claim C7: with every per-movement queueing simulation returning a value
(`f`), `calculate_person_delay` returns `+infinity` as soon as one of the
twelve simulations is `+infinity`, and otherwise returns the bus delay times
`passengers_per_bus` plus the sum over the twelve movements of that
movement's queue delay times `passengers_per_vehicle`. -/
theorem C7_person_delay_infinity (timing_plan : SignalPlan) (bus_arrival_time : ℚ)
    (avg_arrivals : String → ℚ) (cycle_length : ℚ) (fuel : ℕ) (ppb ppc : ℚ)
    (f : String → Delay)
    (hall : ∀ d ∈ dirs12, calculate_vehicle_queue_delay timing_plan d avg_arrivals
      (min (cycle_length * 2) 200) cycle_length fuel = some (f d)) :
    ((∃ d ∈ dirs12, f d = Delay.inf) →
      calculate_person_delay timing_plan bus_arrival_time avg_arrivals cycle_length fuel ppb ppc =
        some Delay.inf) ∧
    ((∀ d ∈ dirs12, f d ≠ Delay.inf) →
      calculate_person_delay timing_plan bus_arrival_time avg_arrivals cycle_length fuel ppb ppc =
        some (Delay.fin (calculate_bus_delay timing_plan bus_arrival_time * ppb +
          (dirs12.map (fun d => delayVal (f d) * ppc)).sum))) := by
  have hmap : dirs12.map (fun d => calculate_vehicle_queue_delay timing_plan d avg_arrivals
      (min (cycle_length * 2) 200) cycle_length fuel) = dirs12.map (fun d => some (f d)) :=
    map_congr_mem dirs12 _ _ hall
  have hsome : (dirs12.map (fun d => some (f d))).all Option.isSome = true := by
    simp [List.all_eq_true]
  have hvs : (dirs12.map (fun d => some (f d))).map (fun o => o.getD Delay.inf) =
      dirs12.map f := by
    rw [List.map_map]
    simp [Function.comp]
  constructor
  · rintro ⟨d, hd, hfd⟩
    simp only [calculate_person_delay]
    rw [hmap, if_pos hsome, hvs]
    rw [if_pos (List.elem_eq_true_of_mem (List.mem_map.2 ⟨d, hd, hfd⟩))]
  · intro hnoinf
    simp only [calculate_person_delay]
    rw [hmap, if_pos hsome, hvs]
    have hnm : Delay.inf ∉ dirs12.map f := by
      intro hmem
      rcases List.mem_map.1 hmem with ⟨d, hd, hfd⟩
      exact hnoinf d hd hfd
    rw [if_neg (by simpa using hnm)]
    rw [List.map_map]
    rfl

/-- Tabulated per-movement delays of `plan4` over the 10-second window: the
queue loop run on the direction's column of `tl4`.  Used by the C7 witness. -/
def f4 : String → Delay := fun d =>
  Delay.fin (queueLoop (tl4.map (stateOf ((dir_map d).getD "East-West-Through")))
    (avg_arrivals_default d) 0 0 0)

/-- Claim C7, witness: the twelve simulations of `plan4` over the 10-second
window given by `cycle_length` 5 all produce finite delays, and the person
delay is the weighted sum of the bus delay and the twelve queue delays. -/
theorem C7_person_delay_infinity_witness :
    calculate_person_delay plan4 20 avg_arrivals_default 5 15 30 (3/2) =
      some (Delay.fin (calculate_bus_delay plan4 20 * 30 +
        (dirs12.map (fun d => delayVal (f4 d) * (3/2))).sum)) := by
  have h10 : min ((5:ℚ) * 2) 200 = 10 := by norm_num
  have htlne : tl4 ≠ [] := by simp [tl4]
  apply (C7_person_delay_infinity plan4 20 avg_arrivals_default 5 15 30 (3/2) f4 ?hall).2 ?hnoinf
  case hall =>
    intro d hd
    rw [h10]
    fin_cases hd <;>
      · simp only [calculate_vehicle_queue_delay, generate_plan4]
        rw [if_neg htlne]
        rfl
  case hnoinf =>
    intro d hd
    simp [f4]

/-! ## Claim C10: the timing expander -/

/-- Claim C10, counterexample: on the non-empty plan with a single 0.3-second
phase and horizon 1 the `while` loop of `generate_detailed_timing_plan` never
terminates: `int(round(0.3)) = 0`, so no record is ever emitted and
`current_second` never advances.  No amount of fuel completes the loop. -/
theorem C10_expand_cex : ¬ genTerminates [⟨"All-Red", 3/10⟩] 1 (3/10) := by
  intro h
  obtain ⟨fuel, hs⟩ := h
  suffices hnone : ∀ f, genLoop [⟨"All-Red", 3/10⟩] (mkDirMaps [⟨"All-Red", 3/10⟩])
      1 f 0 0 [] = none by
    rw [generate_detailed_timing_plan, hnone fuel] at hs
    simp at hs
  intro f
  induction f with
  | zero => rfl
  | succ n ih =>
    rw [genLoop]
    rw [if_pos (by norm_num : ((0:ℕ):ℚ) < 1)]
    have hget : ([⟨"All-Red", 3/10⟩] : SignalPlan).get? 0 = some ⟨"All-Red", 3/10⟩ := rfl
    simp only [hget]
    rw [show (pyround ((⟨"All-Red", 3/10⟩ : Phase)).duration).toNat = 0 from by
      norm_num [pyround]]
    simpa [emitPhase] using ih

lemma emitPhase_spec (dm : DirMaps) (name : String) (h : ℕ) :
    ∀ (n cs : ℕ) (acc : List SecRec), cs ≤ h →
    (emitPhase dm name (h : ℚ) n cs acc).1 = min (cs + n) h ∧
    (emitPhase dm name (h : ℚ) n cs acc).2.length = acc.length + (min (cs + n) h - cs) := by
  intro n
  induction n with
  | zero =>
    intro cs acc hcs
    constructor
    · simp only [emitPhase]; omega
    · simp only [emitPhase]; omega
  | succ m ih =>
    intro cs acc hcs
    rw [emitPhase]
    by_cases hlt : cs < h
    · rw [if_pos (by exact_mod_cast hlt)]
      obtain ⟨h1, h2⟩ := ih (cs + 1) (acc ++ [mkSecRec dm cs name]) (by omega)
      constructor
      · rw [h1]; omega
      · rw [h2]; simp [List.length_append]; omega
    · rw [if_neg (by exact_mod_cast hlt)]
      constructor
      · simp only [emitPhase]; omega
      · simp only [emitPhase]; omega

lemma genLoop_spec (plan : SignalPlan) (dm : DirMaps) (h : ℕ)
    (hround : ∀ p ∈ plan, 1 ≤ pyround p.duration) (hne : plan ≠ []) :
    ∀ (fuel cs pidx : ℕ) (acc : List SecRec), acc.length = cs → cs ≤ h →
      pidx < plan.length → h - cs < fuel →
    ∃ out, genLoop plan dm (h : ℚ) fuel cs pidx acc = some out ∧ out.length = h := by
  intro fuel
  induction fuel with
  | zero => intro cs pidx acc _ _ _ hlt; omega
  | succ m ih =>
    intro cs pidx acc hacc hcs hpidx hfuel
    by_cases hlt : cs < h
    · obtain ⟨p, hp⟩ : ∃ p, plan.get? pidx = some p :=
        ⟨plan.get ⟨pidx, hpidx⟩, List.get?_eq_get hpidx⟩
      have hpmem : p ∈ plan := List.get?_mem hp
      have h1 : 1 ≤ pyround p.duration := hround p hpmem
      have htn : 1 ≤ (pyround p.duration).toNat := by omega
      simp only [genLoop, hp]
      rw [if_pos (show ((cs:ℕ):ℚ) < (h:ℚ) by exact_mod_cast hlt)]
      obtain ⟨e1, e2⟩ := emitPhase_spec dm p.phase h ((pyround p.duration).toNat) cs acc hcs
      rw [e1]
      apply ih (min (cs + (pyround p.duration).toNat) h) ((pidx + 1) % plan.length) _
      · rw [e2, hacc]; omega
      · exact min_le_right _ _
      · exact Nat.mod_lt _ (List.length_pos.2 hne)
      · omega
    · have hcseq : cs = h := by omega
      refine ⟨acc, ?_, by omega⟩
      rw [genLoop]
      rw [if_neg (by exact_mod_cast hlt)]

/-- Claim C10, amended: for every non-empty plan all of whose phase durations
round (Python bankers' rounding) to at least one second, and every
non-negative integer horizon, the expansion terminates and emits exactly one
record per second: the result (with fuel `horizon + 1`), hence its seconds
list and each per-direction state list, has exactly `horizon` entries.
(Plans with a phase rounding to 0 seconds can loop forever — see the
counterexample.) -/
theorem C10_expand_amended (signal_timing : SignalPlan) (horizon : ℕ) (cycle_length : ℚ)
    (hne : signal_timing ≠ [])
    (hround : ∀ p ∈ signal_timing, 1 ≤ pyround p.duration) :
    genTerminates signal_timing (horizon : ℚ) cycle_length ∧
    ∃ out, generate_detailed_timing_plan signal_timing (horizon : ℚ) cycle_length (horizon + 1) =
        some out ∧
      out.length = horizon ∧
      (out.map SecRec.sec).length = horizon ∧
      (out.map SecRec.nsl).length = horizon ∧ (out.map SecRec.nst).length = horizon ∧
      (out.map SecRec.ewl).length = horizon ∧ (out.map SecRec.ewt).length = horizon := by
  obtain ⟨out, ho, hol⟩ := genLoop_spec signal_timing (mkDirMaps signal_timing) horizon hround hne
    (horizon + 1) 0 0 [] rfl (Nat.zero_le _) (List.length_pos.2 hne) (by omega)
  constructor
  · exact ⟨horizon + 1, by rw [generate_detailed_timing_plan, ho]; rfl⟩
  · exact ⟨out, by rw [generate_detailed_timing_plan, ho], hol, by simp [hol], by simp [hol],
      by simp [hol], by simp [hol], by simp [hol]⟩

/-- Claim C10, witness for the amended theorem: `plan4` (durations 5 and 4
round to themselves) over a 3-second horizon. -/
theorem C10_expand_amended_witness :
    genTerminates plan4 ((3:ℕ) : ℚ) 18 ∧
    ∃ out, generate_detailed_timing_plan plan4 ((3:ℕ) : ℚ) 18 (3 + 1) = some out ∧
      out.length = 3 ∧
      (out.map SecRec.sec).length = 3 ∧
      (out.map SecRec.nsl).length = 3 ∧ (out.map SecRec.nst).length = 3 ∧
      (out.map SecRec.ewl).length = 3 ∧ (out.map SecRec.ewt).length = 3 :=
  C10_expand_amended plan4 3 18 (by simp [plan4])
    (by
      intro p hp
      simp only [plan4, List.mem_cons] at hp
      rcases hp with rfl | rfl | rfl | rfl | hp
      · norm_num [pyround]
      · norm_num [pyround]
      · norm_num [pyround]
      · norm_num [pyround]
      · simp at hp)

/-! ## Claim C1: cycle conservation of accepted plans -/

lemma durSum_split (l : SignalPlan) (hxor : ∀ p ∈ l, isGreenName p ≠ isYellowName p) :
    durSum l = durSum (l.filter isGreenName) + durSum (l.filter isYellowName) := by
  induction l with
  | nil => simp [durSum]
  | cons p rest ih =>
    have hx := hxor p (List.mem_cons_self p rest)
    have hrest := fun q hq => hxor q (List.mem_cons_of_mem p hq)
    cases hg : isGreenName p <;> cases hy : isYellowName p
    · rw [hg, hy] at hx; exact absurd rfl hx
    · rw [durSum_cons, List.filter_cons, List.filter_cons, hg, hy]
      norm_num [durSum_cons]
      rw [ih hrest]; ring
    · rw [durSum_cons, List.filter_cons, List.filter_cons, hg, hy]
      norm_num [durSum_cons]
      rw [ih hrest]; ring
    · rw [hg, hy] at hx; exact absurd rfl hx

lemma adjustGreen_phase (d tg : ℚ) (p : Phase) : (adjustGreen d tg p).phase = p.phase := by
  rw [adjustGreen]; split_ifs <;> rfl

lemma isGreenName_adjustGreen (d tg : ℚ) (p : Phase) :
    isGreenName (adjustGreen d tg p) = isGreenName p := by
  rw [isGreenName, isGreenName, adjustGreen_phase]

lemma isYellowName_adjustGreen (d tg : ℚ) (p : Phase) :
    isYellowName (adjustGreen d tg p) = isYellowName p := by
  rw [isYellowName, isYellowName, adjustGreen_phase]

lemma adjustGreen_of_not_green (d tg : ℚ) (p : Phase) (hg : isGreenName p = false) :
    adjustGreen d tg p = p := by
  rw [adjustGreen, if_neg (by simp [hg])]

lemma filter_yellow_map (d tg : ℚ) (l : SignalPlan)
    (hxor : ∀ p ∈ l, isGreenName p ≠ isYellowName p) :
    (l.map (adjustGreen d tg)).filter isYellowName = l.filter isYellowName := by
  induction l with
  | nil => rfl
  | cons p rest ih =>
    have hx := hxor p (List.mem_cons_self p rest)
    have hrest := fun q hq => hxor q (List.mem_cons_of_mem p hq)
    rw [List.map_cons, List.filter_cons, List.filter_cons, isYellowName_adjustGreen]
    cases hy : isYellowName p
    · rw [if_neg (by simp), if_neg (by simp)]
      exact ih hrest
    · have hg : isGreenName p = false := by
        cases hgv : isGreenName p
        · rfl
        · rw [hgv, hy] at hx; exact absurd rfl hx
      rw [if_pos rfl, if_pos rfl, adjustGreen_of_not_green d tg p hg, ih hrest]

lemma findIdx_map_adjustGreen (d tg : ℚ) (l : SignalPlan) :
    (l.map (adjustGreen d tg)).findIdx isGreenName = l.findIdx isGreenName := by
  induction l with
  | nil => rfl
  | cons p rest ih =>
    rw [List.map_cons, List.findIdx_cons, List.findIdx_cons, isGreenName_adjustGreen, ih]

lemma findIdx_lt_of_any (l : SignalPlan) (h : l.any isGreenName = true) :
    l.findIdx isGreenName < l.length := by
  induction l with
  | nil => simp at h
  | cons p t ih =>
    rw [List.findIdx_cons]
    cases hgp : isGreenName p
    · simp only [cond_false]
      have ht : t.any isGreenName = true := by simpa [hgp] using h
      simpa using ih ht
    · simp

lemma getD_findIdx_green (l : SignalPlan) (h : l.findIdx isGreenName < l.length) :
    isGreenName (l.getD (l.findIdx isGreenName) ⟨"", 0⟩) = true := by
  induction l with
  | nil => simp at h
  | cons p t ih =>
    rw [List.findIdx_cons] at h ⊢
    cases hgp : isGreenName p
    · rw [hgp] at h
      simp only [cond_false] at h ⊢
      rw [List.getD_cons_succ]
      exact ih (by simpa using h)
    · simp only [cond_true]
      rw [List.getD_cons_zero]
      exact hgp

lemma findIdx_set_of_green (a : Phase) (ha : isGreenName a = true) :
    ∀ l : SignalPlan, l.findIdx isGreenName < l.length →
    (l.set (l.findIdx isGreenName) a).findIdx isGreenName = l.findIdx isGreenName := by
  intro l
  induction l with
  | nil => intro h; simp at h
  | cons p t ih =>
    intro h
    rw [List.findIdx_cons] at h ⊢
    cases hgp : isGreenName p
    · rw [hgp] at h
      simp only [cond_false] at h ⊢
      rw [List.set_cons_succ, List.findIdx_cons, hgp]
      simp only [cond_false]
      rw [ih (by simpa using h)]
    · simp only [cond_true]
      rw [List.set_cons_zero, List.findIdx_cons, ha]
      rfl

lemma getD_set_self (a d : Phase) :
    ∀ (l : SignalPlan) (i : ℕ), i < l.length → (l.set i a).getD i d = a := by
  intro l
  induction l with
  | nil => intro i h; simp at h
  | cons p t ih =>
    intro i h
    cases i with
    | zero => rw [List.set_cons_zero, List.getD_cons_zero]
    | succ j =>
      rw [List.set_cons_succ, List.getD_cons_succ]
      exact ih j (by simpa using h)

lemma durSum_set (a : Phase) :
    ∀ (l : SignalPlan) (i : ℕ), i < l.length →
    durSum (l.set i a) = durSum l - (l.getD i ⟨"", 0⟩).duration + a.duration := by
  intro l
  induction l with
  | nil => intro i h; simp at h
  | cons p t ih =>
    intro i h
    cases i with
    | zero =>
      rw [List.set_cons_zero, List.getD_cons_zero, durSum_cons, durSum_cons]
      ring
    | succ j =>
      rw [List.set_cons_succ, List.getD_cons_succ, durSum_cons, durSum_cons,
        ih j (by simpa using h)]
      ring

/-- Claim C1, counterexample: a plan accepted by
`adjust_four_phase_plan_to_cycle_length` plus `validate_plan` whose total
duration differs from the target cycle length by far more than 1e-6.
Adjusting the 104-second plan `planPC` to target 100 clamps its first green
at `MIN_GREEN`, yielding `planPC1` of total 2405/24 ≈ 100.208 s; `validate_plan`
does not check the cycle length, so the plan is accepted 5/24 s off target. -/
theorem C1_cycle_not_conserved_cex :
    adjust_four_phase_plan_to_cycle_length planPC 100 = some planPC1 ∧
    validate_plan planPC1 = true ∧
    ¬ (|durSum planPC1 - 100| ≤ 1/1000000) := by
  refine ⟨?_, ?_, ?_⟩
  · norm_num +decide [adjust_four_phase_plan_to_cycle_length, adjustGreen, planPC, planPC1,
      durSum, isGreenName, isYellowName, strContains, hasSub, leadsWith, MIN_GREEN,
      List.findIdx_cons, abs_of_nonneg, abs_of_nonpos]
  · norm_num +decide [validate_plan, validateAux, planPC1, isGreenName, isYellowName,
      strContains, hasSub, leadsWith, MIN_GREEN, YELLOW_DURATION]
  · norm_num [durSum, planPC1, abs_of_nonneg]

/-- Claim C1, amended: an accepted plan (adjusted, then validated) whose
phases are each green or yellow but not both conserves the target cycle
length to within 1e-6 provided its first Green phase is strictly longer than
`MIN_GREEN` — that is, provided the residual pass was not clamped.  When the
first green is clamped at `MIN_GREEN`, the accepted plan can be off target
(see the counterexample). -/
theorem C1_cycle_conservation_amended (plan : SignalPlan) (target : ℚ) (plan2 : SignalPlan)
    (hadj : adjust_four_phase_plan_to_cycle_length plan target = some plan2)
    (hval : validate_plan plan2 = true)
    (hxor : ∀ p ∈ plan, isGreenName p ≠ isYellowName p)
    (hfg : MIN_GREEN < (plan2.getD (plan2.findIdx isGreenName) ⟨"", 0⟩).duration) :
    |durSum plan2 - target| ≤ 1/1000000 := by
  have hsplit := durSum_split plan hxor
  simp only [adjust_four_phase_plan_to_cycle_length] at hadj
  split_ifs at hadj with h1 h2 h3
  · -- already within tolerance: the plan is returned unchanged
    rcases Option.some.inj hadj with rfl
    rw [hsplit, abs_sub_comm]
    exact le_of_lt h1
  · -- residual pass ran: plan2 = plan1.set g0 a
    have h3' : plan.any isGreenName = true := h3
    set diff := target - (durSum (plan.filter isGreenName) + durSum (plan.filter isYellowName))
      with hdiff
    set TG := durSum (plan.filter isGreenName) with hTG
    set plan1 := plan.map (adjustGreen diff TG) with hplan1
    have hxor1 : ∀ p ∈ plan1, isGreenName p ≠ isYellowName p := by
      intro p hp
      rcases List.mem_map.1 hp with ⟨q, hq, rfl⟩
      rw [isGreenName_adjustGreen, isYellowName_adjustGreen]
      exact hxor q hq
    have hTY1 : durSum (plan1.filter isYellowName) = durSum (plan.filter isYellowName) := by
      rw [hplan1, filter_yellow_map diff TG plan hxor]
    have hcycle1 : durSum plan1 =
        durSum (plan1.filter isGreenName) + durSum (plan.filter isYellowName) := by
      rw [durSum_split plan1 hxor1, hTY1]
    have hg0lt : plan.findIdx isGreenName < plan.length := findIdx_lt_of_any plan h3'
    have hg0lt1 : plan.findIdx isGreenName < plan1.length := by
      rw [hplan1, List.length_map]; exact hg0lt
    have hfidx1 : plan1.findIdx isGreenName = plan.findIdx isGreenName := by
      rw [hplan1, findIdx_map_adjustGreen]
    have hp0green : isGreenName (plan1.getD (plan.findIdx isGreenName) ⟨"", 0⟩) = true := by
      have := getD_findIdx_green plan1 (by rw [hfidx1]; exact hg0lt1)
      rwa [hfidx1] at this
    rcases Option.some.inj hadj with rfl
    -- notation for the updated first-green phase
    set p0 := plan1.getD (plan.findIdx isGreenName) ⟨"", 0⟩ with hp0
    set resid := target - (durSum (plan1.filter isGreenName) +
      durSum (plan.filter isYellowName)) with hresid
    set a : Phase := ⟨p0.phase, max (p0.duration + resid) MIN_GREEN⟩ with ha
    have hagreen : isGreenName a = true := by
      rw [ha, isGreenName]
      exact hp0green
    have hfidx2 : ((plan1.set (plan.findIdx isGreenName) a).findIdx isGreenName) =
        plan.findIdx isGreenName := by
      have := findIdx_set_of_green a hagreen plan1 (by rw [hfidx1]; exact hg0lt1)
      rwa [hfidx1] at this
    have hget2 : (plan1.set (plan.findIdx isGreenName) a).getD (plan.findIdx isGreenName)
        ⟨"", 0⟩ = a := getD_set_self a ⟨"", 0⟩ plan1 (plan.findIdx isGreenName) hg0lt1
    rw [hfidx2, hget2] at hfg
    have hmax : max (p0.duration + resid) MIN_GREEN = p0.duration + resid := by
      rcases le_or_lt (p0.duration + resid) MIN_GREEN with hle | hlt
      · rw [ha] at hfg
        simp only at hfg
        rw [max_eq_right hle] at hfg
        exact absurd hfg (lt_irrefl _)
      · exact max_eq_left (le_of_lt hlt)
    have hdsum : durSum (plan1.set (plan.findIdx isGreenName) a) =
        durSum plan1 - p0.duration + a.duration :=
      durSum_set a plan1 (plan.findIdx isGreenName) hg0lt1
    rw [hdsum]
    have hadur : a.duration = p0.duration + resid := by
      rw [ha]
      simpa using hmax
    rw [hadur, hcycle1, hresid]
    have : durSum (plan1.filter isGreenName) + durSum (plan.filter isYellowName) -
        p0.duration + (p0.duration + (target - (durSum (plan1.filter isGreenName) +
          durSum (plan.filter isYellowName)))) - target = 0 := by ring
    rw [this]
    norm_num
  · -- proportional pass landed within tolerance: plan2 = plan1
    rcases Option.some.inj hadj with rfl
    set diff := target - (durSum (plan.filter isGreenName) + durSum (plan.filter isYellowName))
      with hdiff
    set TG := durSum (plan.filter isGreenName) with hTG
    set plan1 := plan.map (adjustGreen diff TG) with hplan1
    have hxor1 : ∀ p ∈ plan1, isGreenName p ≠ isYellowName p := by
      intro p hp
      rcases List.mem_map.1 hp with ⟨q, hq, rfl⟩
      rw [isGreenName_adjustGreen, isYellowName_adjustGreen]
      exact hxor q hq
    have hTY1 : durSum (plan1.filter isYellowName) = durSum (plan.filter isYellowName) := by
      rw [hplan1, filter_yellow_map diff TG plan hxor]
    have hcycle1 : durSum plan1 =
        durSum (plan1.filter isGreenName) + durSum (plan.filter isYellowName) := by
      rw [durSum_split plan1 hxor1, hTY1]
    rw [hcycle1]
    exact not_lt.1 h2

/-- Claim C1, witness for the amended theorem: Scenario A's plan has cycle
exactly 100, is accepted unchanged for target 100, has distinct green/yellow
classifications and first green 46 s > `MIN_GREEN`, and conserves the cycle. -/
theorem C1_cycle_conservation_amended_witness : |durSum scenarioA - 100| ≤ 1/1000000 := by
  apply C1_cycle_conservation_amended scenarioA 100 scenarioA
  · norm_num +decide [adjust_four_phase_plan_to_cycle_length, adjustGreen, scenarioA,
      durSum, isGreenName, isYellowName, strContains, hasSub, leadsWith, MIN_GREEN,
      abs_of_nonneg, abs_of_nonpos]
  · norm_num +decide [validate_plan, validateAux, scenarioA, isGreenName, isYellowName,
      strContains, hasSub, leadsWith, MIN_GREEN, YELLOW_DURATION]
  · intro p hp
    simp only [scenarioA, List.mem_cons] at hp
    rcases hp with rfl | rfl | rfl | rfl | hp
    · decide
    · decide
    · decide
    · decide
    · simp at hp
  · norm_num +decide [scenarioA, List.findIdx_cons, isGreenName, isYellowName, strContains,
      hasSub, leadsWith, MIN_GREEN, List.getD, List.get?]

end TSPSpec
